import Mathlib

/-
Verification development for the viewer subsystem of the samplemap
repository (the Scatter class: point store, spatial grid index, view
transform, picking, selection and camera centering).

The embedding is shallow: the TypeScript class state becomes a Lean
structure, each method becomes a pure state-passing function, and
JavaScript 64-bit floats become exact rationals.  The JS Map is embedded
as an association list whose set operation overwrites the entry of an
existing key in place and appends a fresh key at the end, which matches
Map.set; lookups are the only observations the code performs on either
map.  The grid key string given by gx + "," + gy is embedded as the
integer pair (gx, gy): integer printing is injective and the separator
makes the pairing injective, so the string key and the pair key induce
the same partition of indices into cells.  Math.hypot is strictly
monotone in the squared distance, so the pick routine is embedded with
squared pixel distances: the comparison d < best.distPx in the source
orders candidates exactly as the squared comparison does.
-/

namespace SampleMap

/-- Point as stored by the viewer: stable external id plus a 2D world
position. -/
structure Point where
  id : Int
  x : ℚ
  y : ℚ
deriving DecidableEq, Repr

/-- Result of a pick: id and world position of the chosen point together
with its squared pixel distance to the click (the source stores the
Euclidean distance; squaring is order-preserving). -/
structure PickResult where
  id : Int
  x : ℚ
  y : ℚ
  distSq : ℚ
deriving DecidableEq, Repr

/-- Association-list embedding of the id-to-index JS Map. -/
abbrev IdMap := List (Int × Nat)

/-- Association-list embedding of the grid JS Map from cell key to the
array of point indices in that cell. -/
abbrev Grid := List ((Int × Int) × List Nat)

/-- Lookup of a key in an association list, first match wins; this is
the Map.get observation. -/
def lookupKey {α β : Type} [DecidableEq α] : List (α × β) → α → Option β
  | [], _ => none
  | e :: rest, k => if e.1 = k then some e.2 else lookupKey rest k

/-- Map.set: overwrite the entry of an existing key in place, append a
fresh key at the end. -/
def mapSet (m : IdMap) (k : Int) (v : Nat) : IdMap :=
  if (lookupKey m k).isSome then
    m.map (fun e => if e.1 = k then (k, v) else e)
  else
    m ++ [(k, v)]

/-- The loop body shared by setPoints and appendPoints: set the id of
each listed point to its index, indices starting at i0. -/
def mapSetAll : IdMap → List Point → Nat → IdMap
  | m, [], _ => m
  | m, p :: rest, i0 => mapSetAll (mapSet m p.id i0) rest (i0 + 1)

/-- Fixed grid cell size in world units (0.05 in the source). -/
def gridSize : ℚ := 1 / 20

/-- Cell key of a point: floor of each coordinate divided by the cell
size, as in the source. -/
def cellKey (p : Point) : Int × Int :=
  (⌊p.x / gridSize⌋, ⌊p.y / gridSize⌋)

/-- Push one index onto the cell list of key k: extend the array when
the key is present, otherwise create a fresh single-index entry. -/
def gridInsert (g : Grid) (k : Int × Int) (i : Nat) : Grid :=
  if (lookupKey g k).isSome then
    g.map (fun e => if e.1 = k then (e.1, e.2 ++ [i]) else e)
  else
    g ++ [(k, [i])]

/-- Insert every listed point into the grid, indices starting at i0;
this is the loop body of rebuildGrid and addToGrid. -/
def insertFrom : Grid → List Point → Nat → Grid
  | g, [], _ => g
  | g, p :: rest, i0 => insertFrom (gridInsert g (cellKey p) i0) rest (i0 + 1)

/-- rebuildGrid: clear the grid and reinsert every point. -/
def rebuildGrid (pts : List Point) : Grid :=
  insertFrom [] pts 0

/-- addToGrid: insert the indices from startIndex to the end of the
current point list. -/
def addToGrid (g : Grid) (points : List Point) (startIndex : Nat) : Grid :=
  insertFrom g (points.drop startIndex) startIndex

/-- The packed float buffer contents for a point list: x then y for each
point in order. -/
def packData (pts : List Point) : List ℚ :=
  pts.flatMap (fun p => [p.x, p.y])

/-- The viewer state: point store, packed buffer, dirty flag, id map,
view transform, selection and spatial grid. -/
structure ScatterState where
  points : List Point
  data : List ℚ
  needsUpload : Bool
  idToIndex : IdMap
  scale : ℚ
  tx : ℚ
  ty : ℚ
  selectedIndex : Int
  grid : Grid
deriving DecidableEq, Repr

/-- The state right after construction: no points, identity-like view,
no selection. -/
def initState : ScatterState :=
  { points := []
    data := []
    needsUpload := false
    idToIndex := []
    scale := 1
    tx := 0
    ty := 0
    selectedIndex := -1
    grid := [] }

/-- setPoints: replace the point list, rebuild the packed buffer and the
id map from scratch, rebuild the grid, mark the GPU buffer dirty. -/
def setPoints (s : ScatterState) (pts : List Point) : ScatterState :=
  { s with
    points := pts
    data := packData pts
    idToIndex := mapSetAll [] pts 0
    grid := rebuildGrid pts
    needsUpload := true }

/-- appendPoints: no-op on empty input, otherwise extend the point list,
grow the packed buffer (the source allocates a larger array, copies the
old contents to offset 0 and writes the new pairs after them, which under
the buffer-length invariant is exactly list append), extend the id map
for the new suffix and insert the new indices into the grid. -/
def appendPoints (s : ScatterState) (pts : List Point) : ScatterState :=
  if pts.length = 0 then s
  else
    let newPoints := s.points ++ pts
    { s with
      points := newPoints
      data := s.data ++ packData pts
      idToIndex := mapSetAll s.idToIndex pts s.points.length
      grid := addToGrid s.grid newPoints s.points.length
      needsUpload := true }

/-- setSelectedId: null clears the selection; a present id selects its
mapped index; a missing id clears the selection. -/
def setSelectedId (s : ScatterState) (idOpt : Option Int) : ScatterState :=
  match idOpt with
  | none => { s with selectedIndex := -1 }
  | some i =>
    match lookupKey s.idToIndex i with
    | some idx => { s with selectedIndex := (idx : Int) }
    | none => { s with selectedIndex := -1 }

/-- The renderer draws the one-point highlight overlay exactly when the
guard selectedIndex greater or equal 0 and less than the point count
holds; this returns the drawn index when it does. -/
def highlightDrawIndex (s : ScatterState) : Option Nat :=
  if 0 ≤ s.selectedIndex ∧ s.selectedIndex < (s.points.length : Int) then
    some s.selectedIndex.toNat
  else none

/-- centerOnSelected with immediate application: guard on a held
selection, then set the translation to the centering target.  The source
reads points[selectedIndex] unguarded above; a stale out-of-range index
reads undefined there, embedded as the identity branch (reachable states
proved below never hit it when the guard passes and the index is in
range). -/
def centerOnSelectedImmediate (s : ScatterState) : ScatterState :=
  if s.selectedIndex < 0 then s
  else
    match s.points[s.selectedIndex.toNat]? with
    | none => s
    | some p => { s with tx := -p.x * s.scale, ty := -p.y * s.scale }

/-- The transition parameters captured by the smooth path of
centerOnSelected: start translation and target translation.  none when
the guard rejects (no selection) or the index reads out of range. -/
structure Anim where
  startTx : ℚ
  startTy : ℚ
  targetTx : ℚ
  targetTy : ℚ
deriving DecidableEq, Repr

/-- The smooth path of centerOnSelected as the transition it schedules. -/
def centerOnSelectedAnim (s : ScatterState) : Option Anim :=
  if s.selectedIndex < 0 then none
  else
    match s.points[s.selectedIndex.toNat]? with
    | none => none
    | some p => some ⟨s.tx, s.ty, -p.x * s.scale, -p.y * s.scale⟩

/-- The ease-out curve t * (2 - t) applied by the animation step. -/
def easeOut (t : ℚ) : ℚ := t * (2 - t)

/-- One animation sample at clamped elapsed fraction t: linear
interpolation from start to target by the eased fraction. -/
def animSample (start target t : ℚ) : ℚ :=
  start + (target - start) * easeOut (min 1 t)

/-- Math.sign of the wheel delta. -/
def signInt (q : ℚ) : Int :=
  if 0 < q then 1 else if q < 0 then -1 else 0

/-- The zoom multiplier 1.1 to the power of minus the sign of deltaY. -/
def zoomFactor (deltaY : ℚ) : ℚ :=
  (11 / 10 : ℚ) ^ (-(signInt deltaY))

/-- Conversion of a pixel position inside the viewport to normalized
device coordinates, with the Y flip of the source. -/
def screenToNdc (px py w h : ℚ) : ℚ × ℚ :=
  ((px / w) * 2 - 1, -((py / h) * 2 - 1))

/-- The inverse view transform: normalized device coordinates to world. -/
def ndcToWorld (s : ScatterState) (n : ℚ × ℚ) : ℚ × ℚ :=
  ((n.1 - s.tx) / s.scale, (n.2 - s.ty) / s.scale)

/-- The forward view transform: world to normalized device coordinates. -/
def worldToNdc (s : ScatterState) (wpt : ℚ × ℚ) : ℚ × ℚ :=
  (wpt.1 * s.scale + s.tx, wpt.2 * s.scale + s.ty)

/-- The wheel handler: zoom anchored at the cursor.  Computes the world
point under the cursor with the pre-zoom transform, multiplies the scale
by the zoom factor, then recomputes the translation so that the same
world point maps back to the cursor. -/
def wheel (s : ScatterState) (px py w h deltaY : ℚ) : ScatterState :=
  let zoom := zoomFactor deltaY
  let n := screenToNdc px py w h
  let wx := (n.1 - s.tx) / s.scale
  let wy := (n.2 - s.ty) / s.scale
  let scale2 := s.scale * zoom
  { s with scale := scale2, tx := n.1 - wx * scale2, ty := n.2 - wy * scale2 }

/-- The hard cap on the ring search radius (48 in the source). -/
def maxR : Nat := 48

/-- The cell offsets visited at ring radius r, in source loop order: dy
outer from -r to r, dx inner from -r to r, skipping interior cells when
r is positive. -/
def ringOffsets (r : Nat) : List (Int × Int) :=
  (List.range (2 * r + 1)).flatMap fun dyi =>
    (List.range (2 * r + 1)).filterMap fun dxi =>
      let dy : Int := (dyi : Int) - (r : Int)
      let dx : Int := (dxi : Int) - (r : Int)
      if 0 < r ∧ dx.natAbs ≠ r ∧ dy.natAbs ≠ r then none
      else some (dx, dy)

/-- The index array stored in the grid for one cell (empty when the key
is absent). -/
def cellIndices (s : ScatterState) (k : Int × Int) : List Nat :=
  (lookupKey s.grid k).getD []

/-- All candidate indices examined at ring radius r around center c. -/
def ringCandidates (s : ScatterState) (c : Int × Int) (r : Nat) : List Nat :=
  (ringOffsets r).flatMap fun d => cellIndices s (c.1 + d.1, c.2 + d.2)

/-- Squared pixel distance from the click at (px, py) to the projected
screen position of a point, following the projection in pick. -/
def distSqTo (s : ScatterState) (px py w h : ℚ) (p : Point) : ℚ :=
  let sx2 := p.x * s.scale + s.tx
  let sy2 := p.y * s.scale + s.ty
  let px2 := ((sx2 + 1) * (1 / 2)) * w
  let py2 := ((-sy2 + 1) * (1 / 2)) * h
  (px2 - px) ^ 2 + (py2 - py) ^ 2

/-- The pick result built from one candidate point. -/
def mkResult (s : ScatterState) (px py w h : ℚ) (p : Point) : PickResult :=
  ⟨p.id, p.x, p.y, distSqTo s px py w h p⟩

/-- The inner comparison of pick: keep the incumbent unless the new
candidate is strictly closer; an index that reads no point leaves the
incumbent (reachable grids only hold in-range indices, proved below). -/
def consider (s : ScatterState) (px py w h : ℚ)
    (best : Option PickResult) (i : Nat) : Option PickResult :=
  match s.points[i]? with
  | none => best
  | some p =>
    let d := distSqTo s px py w h p
    match best with
    | none => some (mkResult s px py w h p)
    | some b => if d < b.distSq then some (mkResult s px py w h p) else some b

/-- Scan of one ring: fold the comparison over every candidate index of
the ring, starting from no incumbent (the outer loop only reaches ring r
with no incumbent). -/
def scanRing (s : ScatterState) (px py w h : ℚ) (c : Int × Int) (r : Nat) :
    Option PickResult :=
  (ringCandidates s c r).foldl (consider s px py w h) none

/-- The radius loop of pick: scan ring r; stop with the found candidate,
else move to the next ring; give up past the cap. -/
def pickFrom (s : ScatterState) (px py w h : ℚ) (c : Int × Int) (r : Nat) :
    Option PickResult :=
  if r ≤ maxR then
    match scanRing s px py w h c r with
    | some b => some b
    | none => pickFrom s px py w h c (r + 1)
  else none
termination_by maxR + 1 - r
decreasing_by
  simp_wf
  omega

/-- The grid cell containing the unprojected click position. -/
def pickCell (s : ScatterState) (px py w h : ℚ) : Int × Int :=
  let n := screenToNdc px py w h
  let wpos := ndcToWorld s n
  (⌊wpos.1 / gridSize⌋, ⌊wpos.2 / gridSize⌋)

/-- pick: unproject the click to world space, locate its cell, run the
expanding ring search from radius 0. -/
def pick (s : ScatterState) (px py w h : ℚ) : Option PickResult :=
  pickFrom s px py w h (pickCell s px py w h) 0

/-- Membership of index i in the cell list of key k. -/
def gridMem (g : Grid) (k : Int × Int) (i : Nat) : Prop :=
  i ∈ (lookupKey g k).getD []

instance (g : Grid) (k : Int × Int) (i : Nat) : Decidable (gridMem g k i) := by
  unfold gridMem
  infer_instance

/-- Index of the last occurrence of id k among the listed points, their
indices starting at i0; none when k does not occur.  This is the
specification the id map is proved to realize. -/
def lastIdxFrom : List Point → Nat → Int → Option Nat
  | [], _, _ => none
  | p :: rest, i0, k =>
    (lastIdxFrom rest (i0 + 1) k).or (if p.id = k then some i0 else none)

/-- A concrete view state used by witnesses: nontrivial scale and
translation. -/
def viewState : ScatterState :=
  { initState with scale := 5/2, tx := -3/7, ty := 1/9 }

/-- A concrete state holding a selection: one point with id 1, then
setSelectedId 1. -/
def selState : ScatterState :=
  setSelectedId (setPoints initState [⟨1, 0, 0⟩]) (some 1)

/-- The state after replacing the points of selState wholesale. -/
def c5State : ScatterState :=
  setPoints selState [⟨2, 1/2, 1/2⟩]

/-- The duplicate-id store of the C6 counterexample. -/
def c6State : ScatterState :=
  setPoints initState [⟨1, 0, 0⟩, ⟨1, 1/2, 1/2⟩]

/-- The selected one-point state of the C8 witness. -/
def c8State : ScatterState :=
  setSelectedId (setPoints initState [⟨5, 1/4, -1/3⟩]) (some 5)

/-- The states reachable from construction by point-store mutations. -/
inductive StoreReachable : ScatterState → Prop
  | init : StoreReachable initState
  | set (s : ScatterState) (pts : List Point) :
      StoreReachable s → StoreReachable (setPoints s pts)
  | append (s : ScatterState) (pts : List Point) :
      StoreReachable s → StoreReachable (appendPoints s pts)

theorem lookupKey_append_single {α β : Type} [DecidableEq α]
    (m : List (α × β)) (k : α) (v : β) (q : α) :
    lookupKey (m ++ [(k, v)]) q =
      (lookupKey m q).or (if k = q then some v else none) := by
  induction m with
  | nil => simp [lookupKey]
  | cons e rest ih =>
    by_cases h : e.1 = q <;> simp [lookupKey, h, ih]

theorem lookupKey_mapSet_map (m : IdMap) (k : Int) (v : Nat) (q : Int) :
    lookupKey (m.map (fun e => if e.1 = k then (k, v) else e)) q =
      if k = q then (lookupKey m k).map (fun _ => v) else lookupKey m q := by
  induction m with
  | nil => simp [lookupKey]
  | cons e rest ih =>
    by_cases h1 : e.1 = k
    · by_cases h2 : k = q
      · subst h2
        simp [lookupKey, h1, ih]
      · have hq1 : ¬e.1 = q := fun h => h2 (h1.symm.trans h)
        simp [lookupKey, h1, h2, hq1, ih]
    · by_cases h2 : e.1 = q
      · have hne : ¬k = q := fun h => h1 (h2.trans h.symm)
        have hqk : ¬q = k := fun h => hne h.symm
        simp [lookupKey, h1, h2, hne, hqk]
      · simp [lookupKey, h1, h2, ih]

theorem lookupKey_gridInsert_map (g : Grid) (k : Int × Int) (i : Nat)
    (q : Int × Int) :
    lookupKey (g.map (fun e => if e.1 = k then (e.1, e.2 ++ [i]) else e)) q =
      if k = q then (lookupKey g k).map (fun l => l ++ [i]) else lookupKey g q := by
  induction g with
  | nil => simp [lookupKey]
  | cons e rest ih =>
    by_cases h1 : e.1 = k
    · by_cases h2 : k = q
      · subst h2
        simp [lookupKey, h1, ih]
      · have hq1 : ¬e.1 = q := fun h => h2 (h1.symm.trans h)
        simp [lookupKey, h1, h2, hq1, ih]
    · by_cases h2 : e.1 = q
      · have hne : ¬k = q := fun h => h1 (h2.trans h.symm)
        have hqk : ¬q = k := fun h => hne h.symm
        simp [lookupKey, h1, h2, hne, hqk]
      · simp [lookupKey, h1, h2, ih]

theorem lookupKey_mapSet (m : IdMap) (k : Int) (v : Nat) (q : Int) :
    lookupKey (mapSet m k v) q = if k = q then some v else lookupKey m q := by
  unfold mapSet
  rcases h : lookupKey m k with _ | w
  · simp only [h, Option.isSome_none, Bool.false_eq_true, if_false]
    rw [lookupKey_append_single]
    by_cases hq : k = q
    · subst hq
      simp [h]
    · simp [hq]
  · simp only [h, Option.isSome_some, if_true]
    rw [lookupKey_mapSet_map]
    by_cases hq : k = q
    · subst hq
      simp [h]
    · simp [hq]

theorem lookupKey_gridInsert (g : Grid) (k : Int × Int) (i : Nat)
    (q : Int × Int) :
    lookupKey (gridInsert g k i) q =
      if k = q then some (((lookupKey g k).getD []) ++ [i])
      else lookupKey g q := by
  unfold gridInsert
  rcases h : lookupKey g k with _ | l
  · simp only [h, Option.isSome_none, Bool.false_eq_true, if_false]
    rw [lookupKey_append_single]
    by_cases hq : k = q
    · subst hq
      simp [h]
    · simp [hq]
  · simp only [h, Option.isSome_some, if_true]
    rw [lookupKey_gridInsert_map]
    by_cases hq : k = q
    · subst hq
      simp [h]
    · simp [hq]

theorem gridMem_gridInsert (g : Grid) (k0 : Int × Int) (i0 : Nat)
    (k : Int × Int) (i : Nat) :
    gridMem (gridInsert g k0 i0) k i ↔ gridMem g k i ∨ (k = k0 ∧ i = i0) := by
  unfold gridMem
  rw [lookupKey_gridInsert]
  by_cases hq : k0 = k
  · subst hq
    simp
  · have hqs : ¬k = k0 := fun h => hq h.symm
    simp [hq, hqs]

theorem gridMem_insertFrom (pts : List Point) (g : Grid) (i0 : Nat)
    (k : Int × Int) (i : Nat) :
    gridMem (insertFrom g pts i0) k i ↔
      gridMem g k i ∨
        (i0 ≤ i ∧ ∃ p, pts[i - i0]? = some p ∧ k = cellKey p) := by
  induction pts generalizing g i0 with
  | nil => simp [insertFrom]
  | cons p rest ih =>
    rw [insertFrom, ih, gridMem_gridInsert]
    rcases Nat.lt_or_ge i i0 with hlt | hge
    · have h1 : ¬(i0 ≤ i) := by omega
      have h2 : ¬(i0 + 1 ≤ i) := by omega
      have h3 : i ≠ i0 := by omega
      simp [h1, h2, h3]
    · obtain ⟨d, rfl⟩ := Nat.exists_eq_add_of_le hge
      cases d with
      | zero =>
        have h2 : ¬(i0 + 1 ≤ i0 + 0) := by omega
        simp [h2]
      | succ d =>
        have h1 : i0 ≤ i0 + (d + 1) := by omega
        have h2 : i0 + 1 ≤ i0 + (d + 1) := by omega
        have h3 : i0 + (d + 1) ≠ i0 := by omega
        have h4 : i0 + (d + 1) - i0 = d + 1 := by omega
        have h5 : i0 + (d + 1) - (i0 + 1) = d := by omega
        simp [h1, h2, h3, h4, h5]

theorem lookupKey_mapSetAll (pts : List Point) (m : IdMap) (i0 : Nat) (k : Int) :
    lookupKey (mapSetAll m pts i0) k = (lastIdxFrom pts i0 k).or (lookupKey m k) := by
  induction pts generalizing m i0 with
  | nil => simp [mapSetAll, lastIdxFrom]
  | cons p rest ih =>
    rw [mapSetAll, ih, lastIdxFrom, lookupKey_mapSet, Option.or_assoc]
    rcases lastIdxFrom rest (i0 + 1) k with _ | j
    · by_cases h : p.id = k
      · simp [h]
      · have hs : ¬k = p.id := fun hh => h hh.symm
        simp [h, hs]
    · simp

theorem lastIdxFrom_append (l1 l2 : List Point) (i0 : Nat) (k : Int) :
    lastIdxFrom (l1 ++ l2) i0 k =
      (lastIdxFrom l2 (i0 + l1.length) k).or (lastIdxFrom l1 i0 k) := by
  induction l1 generalizing i0 with
  | nil => simp [lastIdxFrom]
  | cons p rest ih =>
    rw [List.cons_append, lastIdxFrom, lastIdxFrom, ih, Option.or_assoc]
    have h : i0 + 1 + rest.length = i0 + (rest.length + 1) := by omega
    rw [h]
    simp

theorem lastIdxFrom_bounds (pts : List Point) (i0 : Nat) (k : Int) (j : Nat)
    (h : lastIdxFrom pts i0 k = some j) :
    i0 ≤ j ∧ ∃ p, pts[j - i0]? = some p ∧ p.id = k := by
  induction pts generalizing i0 with
  | nil => simp [lastIdxFrom] at h
  | cons p rest ih =>
    rw [lastIdxFrom] at h
    rcases hrest : lastIdxFrom rest (i0 + 1) k with _ | j2
    · rw [hrest] at h
      by_cases hp : p.id = k
      · rw [if_pos hp] at h
        simp at h
        subst h
        refine ⟨Nat.le_refl _, p, ?_, hp⟩
        simp
      · rw [if_neg hp] at h
        simp at h
    · rw [hrest] at h
      have hj : j2 = j := by simpa using h
      rw [hj] at hrest
      obtain ⟨hle, q, hq, hid⟩ := ih (i0 + 1) hrest
      refine ⟨by omega, q, ?_, hid⟩
      have h4 : j - i0 = (j - (i0 + 1)) + 1 := by omega
      rw [h4]
      simpa using hq

theorem lastIdxFrom_none_of_not_mem (pts : List Point) (i0 : Nat) (k : Int)
    (h : k ∉ pts.map Point.id) : lastIdxFrom pts i0 k = none := by
  induction pts generalizing i0 with
  | nil => rfl
  | cons p rest ih =>
    rw [List.map_cons] at h
    simp only [List.mem_cons, not_or] at h
    rw [lastIdxFrom, ih (i0 + 1) h.2]
    have hp : ¬p.id = k := fun hh => h.1 hh.symm
    simp [hp]

theorem lastIdxFrom_nodup (pts : List Point) (i0 t : Nat) (p : Point)
    (hnd : (pts.map Point.id).Nodup) (ht : pts[t]? = some p) :
    lastIdxFrom pts i0 p.id = some (i0 + t) := by
  induction pts generalizing i0 t with
  | nil => simp at ht
  | cons q rest ih =>
    rw [List.map_cons, List.nodup_cons] at hnd
    cases t with
    | zero =>
      rw [List.getElem?_cons_zero] at ht
      have hq : q = p := by injection ht
      subst hq
      rw [lastIdxFrom, lastIdxFrom_none_of_not_mem rest (i0 + 1) q.id hnd.1]
      simp
    | succ t =>
      rw [List.getElem?_cons_succ] at ht
      rw [lastIdxFrom, ih (i0 + 1) t hnd.2 ht]
      simp only [Option.or]
      have h5 : i0 + 1 + t = i0 + (t + 1) := by omega
      rw [h5]

theorem packData_length (pts : List Point) :
    (packData pts).length = 2 * pts.length := by
  induction pts with
  | nil => rfl
  | cons p rest ih =>
    simp [packData] at ih ⊢
    omega

/-- Grid consistency: membership in the grid is exactly membership at
the cell of the current position of an in-range index. -/
def GridInv (s : ScatterState) : Prop :=
  ∀ k i, gridMem s.grid k i ↔ ∃ p, s.points[i]? = some p ∧ k = cellKey p

/-- Packed buffer length is twice the point count. -/
def DataInv (s : ScatterState) : Prop :=
  s.data.length = 2 * s.points.length

/-- The id map realizes last-occurrence lookup over the current points. -/
def MapInv (s : ScatterState) : Prop :=
  ∀ k, lookupKey s.idToIndex k = lastIdxFrom s.points 0 k

/-- The conjunction of the point-store invariants. -/
def StoreInv (s : ScatterState) : Prop :=
  GridInv s ∧ DataInv s ∧ MapInv s

theorem storeInv_setPoints (s : ScatterState) (pts : List Point) :
    StoreInv (setPoints s pts) := by
  refine ⟨?_, ?_, ?_⟩
  · intro k i
    simp only [setPoints]
    rw [rebuildGrid, gridMem_insertFrom]
    simp [gridMem, lookupKey]
  · show (packData pts).length = 2 * pts.length
    exact packData_length pts
  · intro k
    simp only [setPoints]
    rw [lookupKey_mapSetAll]
    simp [lookupKey]

theorem storeInv_init : StoreInv initState := by
  refine ⟨?_, rfl, ?_⟩
  · intro k i
    simp [initState, gridMem, lookupKey]
  · intro k
    rfl

theorem storeInv_appendPoints (s : ScatterState) (pts : List Point)
    (h : StoreInv s) : StoreInv (appendPoints s pts) := by
  obtain ⟨hg, hd, hm⟩ := h
  rw [appendPoints]
  by_cases hz : pts.length = 0
  · rw [if_pos hz]
    exact ⟨hg, hd, hm⟩
  · rw [if_neg hz]
    refine ⟨?_, ?_, ?_⟩
    · intro k i
      show gridMem (addToGrid s.grid (s.points ++ pts) s.points.length) k i ↔ _
      rw [addToGrid, List.drop_left, gridMem_insertFrom, hg k i]
      by_cases hi : i < s.points.length
      · have hh : ¬(s.points.length ≤ i) := by omega
        simp only [hh, false_and, or_false]
        constructor
        · rintro ⟨p, hp, hk⟩
          exact ⟨p, by rw [List.getElem?_append, if_pos hi]; exact hp, hk⟩
        · rintro ⟨p, hp, hk⟩
          rw [List.getElem?_append, if_pos hi] at hp
          exact ⟨p, hp, hk⟩
      · have hh : s.points.length ≤ i := by omega
        have hnone : s.points[i]? = none := by
          rw [List.getElem?_eq_none]
          omega
        simp only [hnone, hh, true_and]
        constructor
        · rintro (⟨p, hp, _⟩ | ⟨p, hp, hk⟩)
          · simp at hp
          · exact ⟨p, by rw [List.getElem?_append_right hh]; exact hp, hk⟩
        · rintro ⟨p, hp, hk⟩
          rw [List.getElem?_append_right hh] at hp
          exact Or.inr ⟨p, hp, hk⟩
    · show (s.data ++ packData pts).length = 2 * (s.points ++ pts).length
      rw [List.length_append, List.length_append, packData_length, hd]
      omega
    · intro k
      show lookupKey (mapSetAll s.idToIndex pts s.points.length) k = _
      rw [lookupKey_mapSetAll, hm k, lastIdxFrom_append]
      simp

theorem storeInv_of_reachable (s : ScatterState) (h : StoreReachable s) :
    StoreInv s := by
  induction h with
  | init => exact storeInv_init
  | set s pts _ _ => exact storeInv_setPoints s pts
  | append s pts _ ih => exact storeInv_appendPoints s pts ih

theorem consider_eq_none (s : ScatterState) (px py w h : ℚ)
    (best : Option PickResult) (i : Nat) :
    consider s px py w h best i = none ↔ best = none ∧ s.points[i]? = none := by
  rcases hgi : s.points[i]? with _ | p
  · simp only [consider, hgi]
    simp
  · simp only [consider, hgi]
    rcases best with _ | b0
    · simp
    · by_cases hlt : distSqTo s px py w h p < b0.distSq <;> simp [hlt]

theorem foldl_consider_none (s : ScatterState) (px py w h : ℚ)
    (idxs : List Nat) :
    ∀ best : Option PickResult,
      (idxs.foldl (consider s px py w h) best = none ↔
        best = none ∧ ∀ i ∈ idxs, s.points[i]? = none) := by
  induction idxs with
  | nil =>
    intro best
    simp
  | cons i rest ih =>
    intro best
    rw [List.foldl_cons, ih]
    rw [consider_eq_none]
    constructor
    · rintro ⟨⟨hb, hi⟩, hrest⟩
      refine ⟨hb, ?_⟩
      intro j hj
      rcases List.mem_cons.mp hj with rfl | hj2
      · exact hi
      · exact hrest j hj2
    · rintro ⟨hb, hall⟩
      exact ⟨⟨hb, hall i (List.mem_cons_self i rest)⟩,
        fun j hj => hall j (List.mem_cons_of_mem i hj)⟩

theorem foldl_consider_some (s : ScatterState) (px py w h : ℚ)
    (idxs : List Nat) :
    ∀ (best : Option PickResult) (b : PickResult),
      idxs.foldl (consider s px py w h) best = some b →
      (best = some b ∨
        ∃ i ∈ idxs, ∃ p, s.points[i]? = some p ∧ b = mkResult s px py w h p) ∧
      (∀ b0, best = some b0 → b.distSq ≤ b0.distSq) ∧
      (∀ i ∈ idxs, ∀ p, s.points[i]? = some p →
        b.distSq ≤ distSqTo s px py w h p) := by
  induction idxs with
  | nil =>
    intro best b hfold
    simp at hfold
    refine ⟨Or.inl (by rw [hfold]), ?_, by simp⟩
    intro b0 hb0
    rw [hfold] at hb0
    injection hb0 with hb0
    rw [hb0]
  | cons i rest ih =>
    intro best b hfold
    rw [List.foldl_cons] at hfold
    rcases hgi : s.points[i]? with _ | p
    · have hc : consider s px py w h best i = best := by
        simp only [consider, hgi]
      rw [hc] at hfold
      obtain ⟨horig, hbest, hrest⟩ := ih best b hfold
      refine ⟨?_, hbest, ?_⟩
      · rcases horig with h1 | ⟨j, hj, hp⟩
        · exact Or.inl h1
        · exact Or.inr ⟨j, List.mem_cons_of_mem i hj, hp⟩
      · intro j hj p hp
        rcases List.mem_cons.mp hj with rfl | hj2
        · rw [hgi] at hp
          cases hp
        · exact hrest j hj2 p hp
    · rcases best with _ | b0
      · have hc : consider s px py w h none i = some (mkResult s px py w h p) := by
          simp only [consider, hgi]
        rw [hc] at hfold
        obtain ⟨horig, hbest, hrest⟩ := ih _ b hfold
        have hble : b.distSq ≤ distSqTo s px py w h p := hbest _ rfl
        refine ⟨?_, ?_, ?_⟩
        · rcases horig with h1 | ⟨j, hj, q, hq, hb⟩
          · injection h1 with h1
            exact Or.inr ⟨i, List.mem_cons_self i rest, p, hgi, h1.symm⟩
          · exact Or.inr ⟨j, List.mem_cons_of_mem i hj, q, hq, hb⟩
        · intro b0 hb0
          cases hb0
        · intro j hj q hq
          rcases List.mem_cons.mp hj with rfl | hj2
          · rw [hgi] at hq
            injection hq with hq
            rw [← hq]
            exact hble
          · exact hrest j hj2 q hq
      · by_cases hlt : distSqTo s px py w h p < b0.distSq
        · have hc : consider s px py w h (some b0) i = some (mkResult s px py w h p) := by
            simp only [consider, hgi, hlt, if_true]
          rw [hc] at hfold
          obtain ⟨horig, hbest, hrest⟩ := ih _ b hfold
          have hble : b.distSq ≤ distSqTo s px py w h p := hbest _ rfl
          refine ⟨?_, ?_, ?_⟩
          · rcases horig with h1 | ⟨j, hj, q, hq, hb⟩
            · injection h1 with h1
              exact Or.inr ⟨i, List.mem_cons_self i rest, p, hgi, h1.symm⟩
            · exact Or.inr ⟨j, List.mem_cons_of_mem i hj, q, hq, hb⟩
          · intro b1 hb1
            injection hb1 with hb1
            subst hb1
            exact le_of_lt (lt_of_le_of_lt hble hlt)
          · intro j hj q hq
            rcases List.mem_cons.mp hj with rfl | hj2
            · rw [hgi] at hq
              injection hq with hq
              rw [← hq]
              exact hble
            · exact hrest j hj2 q hq
        · have hc : consider s px py w h (some b0) i = some b0 := by
            simp only [consider, hgi, hlt, if_false]
          rw [hc] at hfold
          obtain ⟨horig, hbest, hrest⟩ := ih _ b hfold
          have hble : b.distSq ≤ b0.distSq := hbest _ rfl
          refine ⟨?_, ?_, ?_⟩
          · rcases horig with h1 | ⟨j, hj, q, hq, hb⟩
            · exact Or.inl h1
            · exact Or.inr ⟨j, List.mem_cons_of_mem i hj, q, hq, hb⟩
          · intro b1 hb1
            injection hb1 with hb1
            subst hb1
            exact hble
          · intro j hj q hq
            rcases List.mem_cons.mp hj with rfl | hj2
            · rw [hgi] at hq
              injection hq with hq
              rw [← hq]
              exact le_trans hble (le_of_not_lt hlt)
            · exact hrest j hj2 q hq

theorem scanRing_none_iff (s : ScatterState) (px py w h : ℚ) (c : Int × Int)
    (r : Nat) :
    scanRing s px py w h c r = none ↔
      ∀ i ∈ ringCandidates s c r, s.points[i]? = none := by
  rw [scanRing, foldl_consider_none]
  simp

theorem scanRing_some (s : ScatterState) (px py w h : ℚ) (c : Int × Int)
    (r : Nat) (b : PickResult) (hb : scanRing s px py w h c r = some b) :
    (∃ i ∈ ringCandidates s c r, ∃ p, s.points[i]? = some p ∧
        b = mkResult s px py w h p) ∧
      ∀ i ∈ ringCandidates s c r, ∀ p, s.points[i]? = some p →
        b.distSq ≤ distSqTo s px py w h p := by
  rw [scanRing] at hb
  obtain ⟨horig, _, hrest⟩ := foldl_consider_some s px py w h _ none b hb
  rcases horig with h1 | h2
  · cases h1
  · exact ⟨h2, hrest⟩

theorem pickFrom_none_iff (s : ScatterState) (px py w h : ℚ) (c : Int × Int) :
    ∀ (n r0 : Nat), n = maxR + 1 - r0 →
      (pickFrom s px py w h c r0 = none ↔
        ∀ r, r0 ≤ r → r ≤ maxR → scanRing s px py w h c r = none) := by
  intro n
  induction n with
  | zero =>
    intro r0 hn
    have hr : ¬r0 ≤ maxR := by
      unfold maxR at hn ⊢
      omega
    rw [pickFrom, if_neg hr]
    constructor
    · intro _ r hr0 hrm
      exact absurd (le_trans hr0 hrm) (by omega)
    · intro _
      rfl
  | succ n ih =>
    intro r0 hn
    have hr0 : r0 ≤ maxR := by
      unfold maxR at hn ⊢
      omega
    rw [pickFrom, if_pos hr0]
    rcases hs : scanRing s px py w h c r0 with _ | b
    · rw [ih (r0 + 1) (by omega)]
      constructor
      · intro hall r hr1 hr2
        rcases Nat.eq_or_lt_of_le hr1 with rfl | hlt
        · exact hs
        · exact hall r (by omega) hr2
      · intro hall r hr1 hr2
        exact hall r (by omega) hr2
    · simp only []
      constructor
      · intro hcontra
        cases hcontra
      · intro hall
        have h2 := hall r0 (Nat.le_refl r0) hr0
        rw [hs] at h2
        cases h2

theorem pickFrom_some (s : ScatterState) (px py w h : ℚ) (c : Int × Int) :
    ∀ (n r0 : Nat) (b : PickResult), n = maxR + 1 - r0 →
      pickFrom s px py w h c r0 = some b →
      ∃ r, r0 ≤ r ∧ r ≤ maxR ∧ scanRing s px py w h c r = some b ∧
        ∀ r2, r0 ≤ r2 → r2 < r → scanRing s px py w h c r2 = none := by
  intro n
  induction n with
  | zero =>
    intro r0 b hn hp
    have hr : ¬r0 ≤ maxR := by
      unfold maxR at hn ⊢
      omega
    rw [pickFrom, if_neg hr] at hp
    cases hp
  | succ n ih =>
    intro r0 b hn hp
    have hr0 : r0 ≤ maxR := by
      unfold maxR at hn ⊢
      omega
    rw [pickFrom, if_pos hr0] at hp
    rcases hs : scanRing s px py w h c r0 with _ | b2
    · rw [hs] at hp
      obtain ⟨r, hr1, hr2, hr3, hr4⟩ := ih (r0 + 1) b (by omega) hp
      refine ⟨r, by omega, hr2, hr3, ?_⟩
      intro r2 hr5 hr6
      rcases Nat.eq_or_lt_of_le hr5 with rfl | hlt
      · exact hs
      · exact hr4 r2 (by omega) hr6
    · rw [hs] at hp
      injection hp with hp
      subst hp
      exact ⟨r0, Nat.le_refl r0, hr0, hs, fun r2 h1 h2 => absurd (lt_of_le_of_lt h1 h2) (lt_irrefl r0)⟩

theorem mem_ringOffsets (r : Nat) (d : Int × Int) :
    d ∈ ringOffsets r ↔ max d.1.natAbs d.2.natAbs = r := by
  rcases d with ⟨dx, dy⟩
  simp only [ringOffsets, List.mem_flatMap, List.mem_filterMap, List.mem_range]
  constructor
  · rintro ⟨dyi, hdyi, dxi, hdxi, hf⟩
    by_cases hcond : 0 < r ∧ ((dxi : Int) - (r : Int)).natAbs ≠ r ∧
        ((dyi : Int) - (r : Int)).natAbs ≠ r
    · rw [if_pos hcond] at hf
      cases hf
    · rw [if_neg hcond] at hf
      injection hf with hf
      rw [Prod.mk.injEq] at hf
      obtain ⟨hdx, hdy⟩ := hf
      simp at hdxi
      obtain ⟨a, ha, rfl⟩ := hdxi
      have hxle : dx.natAbs ≤ r := by omega
      have hyle : dy.natAbs ≤ r := by omega
      have hor2 : r = 0 ∨ dx.natAbs = r ∨ dy.natAbs = r := by omega
      rcases Nat.le_total dx.natAbs dy.natAbs with hle | hle
      · rw [Nat.max_eq_right hle]
        omega
      · rw [Nat.max_eq_left hle]
        omega
  · intro hmax
    have ha : dx.natAbs ≤ r := by
      rw [← hmax]
      exact Nat.le_max_left _ _
    have hb : dy.natAbs ≤ r := by
      rw [← hmax]
      exact Nat.le_max_right _ _
    have hor : dx.natAbs = r ∨ dy.natAbs = r := by
      rcases max_choice dx.natAbs dy.natAbs with hc | hc <;> rw [hc] at hmax
      · exact Or.inl hmax
      · exact Or.inr hmax
    refine ⟨(dy + (r : Int)).toNat, by omega, ?_⟩
    refine ⟨dx + (r : Int), ?_, ?_⟩
    · simp
      exact ⟨(dx + (r : Int)).toNat, by omega, by omega⟩
    · rw [if_neg (by omega)]
      simp only [Option.some.injEq, Prod.mk.injEq]
      constructor <;> omega

/-- C1: after any sequence of setPoints and appendPoints calls, every
index of a point currently in the store appears in the spatial grid
under exactly the cell key given by flooring each coordinate of its
current position by the cell size, and under no other cell. -/
theorem grid_index_consistency (s : ScatterState) (h : StoreReachable s) :
    ∀ i p, s.points[i]? = some p →
      gridMem s.grid (cellKey p) i ∧
        ∀ k, k ≠ cellKey p → ¬gridMem s.grid k i := by
  obtain ⟨hg, _, _⟩ := storeInv_of_reachable s h
  intro i p hp
  constructor
  · exact (hg (cellKey p) i).mpr ⟨p, hp, rfl⟩
  · intro k hk hmem
    obtain ⟨q, hq, hkq⟩ := (hg k i).mp hmem
    rw [hp] at hq
    injection hq with hq
    rw [← hq] at hkq
    exact hk hkq

/-- C1 witness: the concrete one-point store after one setPoints call. -/
theorem grid_index_consistency_witness :
    gridMem (setPoints initState [⟨1, 0, 0⟩]).grid (cellKey ⟨1, 0, 0⟩) 0 ∧
      ∀ k, k ≠ cellKey ⟨1, 0, 0⟩ →
        ¬gridMem (setPoints initState [⟨1, 0, 0⟩]).grid k 0 :=
  grid_index_consistency (setPoints initState [⟨1, 0, 0⟩])
    (StoreReachable.set initState [⟨1, 0, 0⟩] StoreReachable.init) 0 ⟨1, 0, 0⟩ rfl

/-- C2: pick examines at radius 0 only the center cell and at radius r
only the cells whose offset has maximum absolute component r; it stops
at the first radius whose ring scan finds a candidate and returns the
candidate of minimum squared pixel distance among all candidates
examined up to that radius; it returns none exactly when every ring up
to the hard cap is empty. -/
theorem pick_ring_search (s : ScatterState) (px py w h : ℚ)
    (hne : s.points ≠ []) :
    (∀ (r : Nat) (d : Int × Int),
        d ∈ ringOffsets r ↔ max d.1.natAbs d.2.natAbs = r) ∧
    (∀ b, pick s px py w h = some b →
      ∃ r, r ≤ maxR ∧
        (∀ r2, r2 < r → scanRing s px py w h (pickCell s px py w h) r2 = none) ∧
        scanRing s px py w h (pickCell s px py w h) r = some b ∧
        (∃ i ∈ ringCandidates s (pickCell s px py w h) r, ∃ p,
          s.points[i]? = some p ∧ b = mkResult s px py w h p) ∧
        (∀ r2, r2 ≤ r → ∀ i ∈ ringCandidates s (pickCell s px py w h) r2,
          ∀ p, s.points[i]? = some p → b.distSq ≤ distSqTo s px py w h p)) ∧
    (pick s px py w h = none ↔
      ∀ r, r ≤ maxR → scanRing s px py w h (pickCell s px py w h) r = none) := by
  refine ⟨mem_ringOffsets, ?_, ?_⟩
  · intro b hb
    rw [pick] at hb
    obtain ⟨r, _, hr2, hr3, hr4⟩ :=
      pickFrom_some s px py w h (pickCell s px py w h) (maxR + 1) 0 b (by omega) hb
    refine ⟨r, hr2, fun r2 h2 => hr4 r2 (Nat.zero_le r2) h2, hr3, ?_, ?_⟩
    · exact (scanRing_some s px py w h _ r b hr3).1
    · intro r2 hr2le i hi p hp
      rcases Nat.eq_or_lt_of_le hr2le with rfl | hlt
      · exact (scanRing_some s px py w h _ r2 b hr3).2 i hi p hp
      · have hnone := hr4 r2 (Nat.zero_le r2) hlt
        have hcontra := (scanRing_none_iff s px py w h _ r2).mp hnone i hi
        rw [hp] at hcontra
        cases hcontra
  · rw [pick, pickFrom_none_iff s px py w h _ (maxR + 1) 0 (by omega)]
    constructor
    · intro hall r hr
      exact hall r (Nat.zero_le r) hr
    · intro hall r _ hr
      exact hall r hr

/-- C2 witness: the ring-shape component at a concrete non-empty store. -/
theorem pick_ring_search_witness :
    (setPoints initState [⟨7, 0, 0⟩]).points ≠ [] ∧
      (∀ (r : Nat) (d : Int × Int),
        d ∈ ringOffsets r ↔ max d.1.natAbs d.2.natAbs = r) :=
  ⟨by decide,
    (pick_ring_search (setPoints initState [⟨7, 0, 0⟩]) 0 0 2 2 (by decide)).1⟩

/-- C3: the zoom-to-cursor wheel update leaves the world coordinate that
maps to the cursor position identical before and after, for every cursor
pixel position, positive scale, translation and zoom step. -/
theorem wheel_zoom_anchors_cursor (s : ScatterState) (px py w h deltaY : ℚ)
    (hs : 0 < s.scale) :
    ndcToWorld (wheel s px py w h deltaY) (screenToNdc px py w h) =
      ndcToWorld s (screenToNdc px py w h) := by
  have hsne : s.scale ≠ 0 := ne_of_gt hs
  have hz : zoomFactor deltaY ≠ 0 :=
    ne_of_gt (zpow_pos (by norm_num) _)
  unfold wheel ndcToWorld screenToNdc
  simp only
  rw [Prod.mk.injEq]
  constructor <;> (field_simp; ring)

/-- C3 witness at a concrete state and wheel event. -/
theorem wheel_zoom_anchors_cursor_witness :
    0 < initState.scale ∧
      ndcToWorld (wheel initState 3 4 10 10 1) (screenToNdc 3 4 10 10) =
        ndcToWorld initState (screenToNdc 3 4 10 10) :=
  ⟨by decide, wheel_zoom_anchors_cursor initState 3 4 10 10 1 (by decide)⟩

/-- C4: with positive scale, composing worldToNdc with ndcToWorld is the
identity on every world coordinate. -/
theorem ndcToWorld_worldToNdc (s : ScatterState) (wpt : ℚ × ℚ)
    (hs : 0 < s.scale) :
    ndcToWorld s (worldToNdc s wpt) = wpt := by
  have hsne : s.scale ≠ 0 := ne_of_gt hs
  rcases wpt with ⟨x, y⟩
  unfold ndcToWorld worldToNdc
  simp only
  rw [Prod.mk.injEq]
  constructor <;> (field_simp)

/-- C4 witness at a concrete transform and world point. -/
theorem ndcToWorld_worldToNdc_witness :
    0 < viewState.scale ∧
      ndcToWorld viewState (worldToNdc viewState (1/3, -2/5)) = (1/3, -2/5) :=
  ⟨by norm_num [viewState, initState],
    ndcToWorld_worldToNdc viewState (1/3, -2/5) (by norm_num [viewState, initState])⟩

/-- C5 counterexample: setPoints does not clear a previously held
selection: after replacing the points the selection index is still 0,
not none, and the highlight guard still treats index 0 as selected. -/
theorem setPoints_keeps_selection_counterexample :
    c5State.selectedIndex = 0 ∧ ¬c5State.selectedIndex = -1 ∧
      highlightDrawIndex c5State = some 0 := by
  refine ⟨by decide, by decide, by decide⟩

/-- C5 amended: setPoints leaves the selection index unchanged rather
than clearing it; a stale index that is in range of the new list is
still treated as selected, and only the draw guard suppresses an
out-of-range stale index. -/
theorem setPoints_retains_selection (s : ScatterState) (pts : List Point) :
    (setPoints s pts).selectedIndex = s.selectedIndex ∧
      (0 ≤ s.selectedIndex → s.selectedIndex < (pts.length : Int) →
        highlightDrawIndex (setPoints s pts) = some s.selectedIndex.toNat) := by
  refine ⟨rfl, ?_⟩
  intro h1 h2
  unfold highlightDrawIndex
  rw [if_pos (⟨h1, h2⟩ :
    0 ≤ (setPoints s pts).selectedIndex ∧
      (setPoints s pts).selectedIndex < ((setPoints s pts).points.length : Int))]
  rfl

/-- C5 amended witness at the concrete replacement state. -/
theorem setPoints_retains_selection_witness :
    0 ≤ selState.selectedIndex ∧
      selState.selectedIndex < (([⟨2, 1/2, 1/2⟩] : List Point).length : Int) ∧
      (setPoints selState [⟨2, 1/2, 1/2⟩]).selectedIndex = selState.selectedIndex ∧
      highlightDrawIndex (setPoints selState [⟨2, 1/2, 1/2⟩]) =
        some selState.selectedIndex.toNat :=
  ⟨by decide, by decide,
    (setPoints_retains_selection selState [⟨2, 1/2, 1/2⟩]).1,
    (setPoints_retains_selection selState [⟨2, 1/2, 1/2⟩]).2 (by decide) (by decide)⟩

/-- C6 counterexample: with a duplicated id the id map is not onto the
index range: the store holds two points, the map holds the single entry
(1, 1), and no id maps to index 0. -/
theorem idMap_not_onto_counterexample :
    c6State.points.length = 2 ∧ c6State.idToIndex = [(1, 1)] ∧
      ¬∃ k, lookupKey c6State.idToIndex k = some 0 := by
  refine ⟨by decide, by decide, ?_⟩
  rintro ⟨k, hk⟩
  rw [show c6State.idToIndex = [(1, 1)] from by decide] at hk
  by_cases hq : ((1 : Int), (1 : Nat)).1 = k <;> simp [lookupKey, hq] at hk

/-- C6 amended: after every reachable mutation sequence the packed
buffer length is twice the point count and every mapped value is a valid
current index; when the stored ids are pairwise distinct the map is
moreover exactly onto the index range. -/
theorem buffer_and_idMap_invariants (s : ScatterState) (h : StoreReachable s) :
    s.data.length = 2 * s.points.length ∧
      (∀ k i, lookupKey s.idToIndex k = some i → i < s.points.length) ∧
      ((s.points.map Point.id).Nodup →
        ∀ i, i < s.points.length → ∃ k, lookupKey s.idToIndex k = some i) := by
  obtain ⟨_, hd, hm⟩ := storeInv_of_reachable s h
  refine ⟨hd, ?_, ?_⟩
  · intro k i hk
    rw [hm k] at hk
    obtain ⟨_, p, hp, _⟩ := lastIdxFrom_bounds s.points 0 k i hk
    obtain ⟨hlt, _⟩ := List.getElem?_eq_some.mp hp
    omega
  · intro hnd i hi
    have hp : s.points[i]? = some (s.points.get ⟨i, hi⟩) := by
      rw [List.getElem?_eq_getElem hi]
      rfl
    refine ⟨(s.points.get ⟨i, hi⟩).id, ?_⟩
    rw [hm]
    have := lastIdxFrom_nodup s.points 0 i (s.points.get ⟨i, hi⟩) hnd hp
    simpa using this

/-- C6 amended witness at a concrete reachable two-point store with
distinct ids. -/
theorem buffer_and_idMap_invariants_witness :
    (appendPoints (setPoints initState [⟨1, 0, 0⟩]) [⟨2, 0, 0⟩]).data.length =
        2 * (appendPoints (setPoints initState [⟨1, 0, 0⟩]) [⟨2, 0, 0⟩]).points.length ∧
      (∀ k i,
        lookupKey (appendPoints (setPoints initState [⟨1, 0, 0⟩]) [⟨2, 0, 0⟩]).idToIndex k =
            some i →
          i < (appendPoints (setPoints initState [⟨1, 0, 0⟩]) [⟨2, 0, 0⟩]).points.length) ∧
      (((appendPoints (setPoints initState [⟨1, 0, 0⟩]) [⟨2, 0, 0⟩]).points.map
          Point.id).Nodup →
        ∀ i, i < (appendPoints (setPoints initState [⟨1, 0, 0⟩]) [⟨2, 0, 0⟩]).points.length →
          ∃ k,
            lookupKey (appendPoints (setPoints initState [⟨1, 0, 0⟩]) [⟨2, 0, 0⟩]).idToIndex k =
              some i) :=
  buffer_and_idMap_invariants (appendPoints (setPoints initState [⟨1, 0, 0⟩]) [⟨2, 0, 0⟩])
    (StoreReachable.append (setPoints initState [⟨1, 0, 0⟩]) [⟨2, 0, 0⟩]
      (StoreReachable.set initState [⟨1, 0, 0⟩] StoreReachable.init))

/-- C7: over every reachable state the id map realizes last-occurrence
lookup (the most recent setting of each id wins), and on the concrete
duplicate input of the claim the lookup of id 1 yields index 1, the
second entry. -/
theorem idMap_last_occurrence (s : ScatterState) (h : StoreReachable s) :
    (∀ k, lookupKey s.idToIndex k = lastIdxFrom s.points 0 k) ∧
      lookupKey (setPoints initState [⟨1, 0, 0⟩, ⟨1, 1/2, 1/2⟩]).idToIndex 1 =
        some 1 := by
  obtain ⟨_, _, hm⟩ := storeInv_of_reachable s h
  exact ⟨hm, by decide⟩

/-- C7 witness at the empty initial store. -/
theorem idMap_last_occurrence_witness :
    (∀ k, lookupKey initState.idToIndex k = lastIdxFrom initState.points 0 k) ∧
      lookupKey (setPoints initState [⟨1, 0, 0⟩, ⟨1, 1/2, 1/2⟩]).idToIndex 1 =
        some 1 :=
  idMap_last_occurrence initState StoreReachable.init

/-- C8: with a current selection the centering target translation is the
negated scaled position of the selected point; the immediate path lands
on the target exactly, the smooth path schedules exactly that target,
and the eased sample equals the target exactly whenever the clamped
elapsed fraction reaches 1. -/
theorem centerOnSelected_converges (s : ScatterState) (p : Point)
    (hsel : 0 ≤ s.selectedIndex)
    (hp : s.points[s.selectedIndex.toNat]? = some p) :
    (centerOnSelectedImmediate s).tx = -p.x * s.scale ∧
      (centerOnSelectedImmediate s).ty = -p.y * s.scale ∧
      centerOnSelectedAnim s = some ⟨s.tx, s.ty, -p.x * s.scale, -p.y * s.scale⟩ ∧
      (∀ start t : ℚ, 1 ≤ t →
        animSample start (-p.x * s.scale) t = -p.x * s.scale) := by
  have hlt : ¬s.selectedIndex < 0 := not_lt.mpr hsel
  refine ⟨?_, ?_, ?_, ?_⟩
  · simp only [centerOnSelectedImmediate, if_neg hlt, hp]
  · simp only [centerOnSelectedImmediate, if_neg hlt, hp]
  · simp only [centerOnSelectedAnim, if_neg hlt, hp]
  · intro start t ht
    unfold animSample easeOut
    rw [min_eq_left ht]
    ring

/-- C8 witness at the concrete selected state. -/
theorem centerOnSelected_converges_witness :
    (centerOnSelectedImmediate c8State).tx = -(1/4 : ℚ) * c8State.scale ∧
      (centerOnSelectedImmediate c8State).ty = -(-1/3 : ℚ) * c8State.scale ∧
      centerOnSelectedAnim c8State =
        some ⟨c8State.tx, c8State.ty, -(1/4 : ℚ) * c8State.scale,
          -(-1/3 : ℚ) * c8State.scale⟩ ∧
      (∀ start t : ℚ, 1 ≤ t →
        animSample start (-(1/4 : ℚ) * c8State.scale) t =
          -(1/4 : ℚ) * c8State.scale) :=
  centerOnSelected_converges c8State ⟨5, 1/4, -1/3⟩ (by decide) rfl

/-- C9: setSelectedId with null or with an id absent from the id map
results in no selection: the index becomes -1, a subsequent
centerOnSelected is a no-op on both paths, and no highlight overlay is
drawn; no arbitrary point is ever selected. -/
theorem setSelectedId_missing_clears (s : ScatterState) (idOpt : Option Int)
    (h : idOpt = none ∨ ∃ i, idOpt = some i ∧ lookupKey s.idToIndex i = none) :
    (setSelectedId s idOpt).selectedIndex = -1 ∧
      centerOnSelectedImmediate (setSelectedId s idOpt) = setSelectedId s idOpt ∧
      centerOnSelectedAnim (setSelectedId s idOpt) = none ∧
      highlightDrawIndex (setSelectedId s idOpt) = none := by
  have hsel : (setSelectedId s idOpt).selectedIndex = -1 := by
    rcases h with rfl | ⟨i, rfl, hl⟩
    · rfl
    · simp only [setSelectedId, hl]
  refine ⟨hsel, ?_, ?_, ?_⟩
  · unfold centerOnSelectedImmediate
    rw [if_pos (by rw [hsel]; decide)]
  · unfold centerOnSelectedAnim
    rw [if_pos (by rw [hsel]; decide)]
  · unfold highlightDrawIndex
    rw [if_neg]
    rw [hsel]
    rintro ⟨h1, _⟩
    omega

/-- C9 witness: id 2 is absent from the one-point store with id 1. -/
theorem setSelectedId_missing_clears_witness :
    lookupKey (setPoints initState [⟨1, 0, 0⟩]).idToIndex 2 = none ∧
      ((setSelectedId (setPoints initState [⟨1, 0, 0⟩]) (some 2)).selectedIndex = -1 ∧
        centerOnSelectedImmediate (setSelectedId (setPoints initState [⟨1, 0, 0⟩]) (some 2)) =
          setSelectedId (setPoints initState [⟨1, 0, 0⟩]) (some 2) ∧
        centerOnSelectedAnim (setSelectedId (setPoints initState [⟨1, 0, 0⟩]) (some 2)) =
          none ∧
        highlightDrawIndex (setSelectedId (setPoints initState [⟨1, 0, 0⟩]) (some 2)) =
          none) :=
  ⟨by decide,
    setSelectedId_missing_clears (setPoints initState [⟨1, 0, 0⟩]) (some 2)
      (Or.inr ⟨2, rfl, by decide⟩)⟩

/-- C10: the highlight overlay draw happens exactly when the selection
index lies in the current point range, and in particular a stale index
surviving a shrinking setPoints never produces a draw whose index is
outside the new point list. -/
theorem highlight_guard_safe (s : ScatterState) :
    (∀ i, highlightDrawIndex s = some i →
      i < s.points.length ∧ s.selectedIndex = (i : Int)) ∧
      (highlightDrawIndex s = none ↔
        ¬(0 ≤ s.selectedIndex ∧ s.selectedIndex < (s.points.length : Int))) ∧
      (∀ pts i, highlightDrawIndex (setPoints s pts) = some i → i < pts.length) := by
  refine ⟨?_, ?_, ?_⟩
  · intro i hi
    unfold highlightDrawIndex at hi
    by_cases hg : 0 ≤ s.selectedIndex ∧ s.selectedIndex < (s.points.length : Int)
    · rw [if_pos hg] at hi
      injection hi with hi
      obtain ⟨hg1, hg2⟩ := hg
      omega
    · rw [if_neg hg] at hi
      cases hi
  · unfold highlightDrawIndex
    by_cases hg : 0 ≤ s.selectedIndex ∧ s.selectedIndex < (s.points.length : Int)
    · rw [if_pos hg]
      simp [hg]
    · rw [if_neg hg]
      simp [hg]
  · intro pts i hi
    simp only [highlightDrawIndex, setPoints] at hi
    by_cases hg : 0 ≤ s.selectedIndex ∧ s.selectedIndex < (pts.length : Int)
    · rw [if_pos hg] at hi
      injection hi with hi
      obtain ⟨hg1, hg2⟩ := hg
      omega
    · rw [if_neg hg] at hi
      cases hi

/-- C10 witness: applying the guard safety at a concrete shrinking
replacement keeps the drawn index inside the one-point list. -/
theorem highlight_guard_safe_witness :
    highlightDrawIndex (setPoints selState [⟨2, 0, 0⟩]) = some 0 ∧
      0 < ([⟨2, 0, 0⟩] : List Point).length :=
  ⟨by decide, (highlight_guard_safe selState).2.2 [⟨2, 0, 0⟩] 0 (by decide)⟩

end SampleMap
